import Mathlib

/-!
Verification of `scripts/generate-registry.py`, a build-time tool that scans a
directory of `*.tar.gz` archives, parses each filename into a package name and
version, and emits a JSON registry index.

The embedding works over `List Char` (a Python `str` is a sequence of code
points).  The reference regular expression is
`^(.+?)-(\d+\.\d+\.\d+.*?)\.tar\.gz$`, applied with `re.match`:

* `.` matches every character except the newline `'\n'`;
* `\d` in a `str` pattern without `re.ASCII` matches every Unicode decimal
  digit (category Nd); it is modelled by `isNdDigit`, the explicit table of
  Nd code-point ranges (660 code points, e.g. ASCII `0`-`9` and the
  Arabic-Indic digits U+0660-U+0669);
* `$` matches at the end of the string, or just before a newline that is the
  last character of the string (Python semantics of `$` without `re.MULTILINE`);
* `(.+?)` is non-greedy: the shortest (leftmost) name prefix wins;
* `\d+` is greedy, which for this pattern means each of the first two digit
  runs is the maximal digit run ending just before a literal `'.'`.
-/

/-- The code-point ranges of the Unicode general category Nd (decimal
digits), the set matched by `\d` in a Python `str` pattern without
`re.ASCII` (CPython's `\d` is exactly category Nd). -/
def ndRanges : List (Nat × Nat) :=
  [(48, 57), (1632, 1641), (1776, 1785), (1984, 1993), (2406, 2415), (2534, 2543), (2662,
   2671), (2790, 2799), (2918, 2927), (3046, 3055), (3174, 3183), (3302, 3311), (3430, 3439),
   (3558, 3567), (3664, 3673), (3792, 3801), (3872, 3881), (4160, 4169), (4240, 4249), (6112,
   6121), (6160, 6169), (6470, 6479), (6608, 6617), (6784, 6793), (6800, 6809), (6992, 7001),
   (7088, 7097), (7232, 7241), (7248, 7257), (42528, 42537), (43216, 43225), (43264, 43273),
   (43472, 43481), (43504, 43513), (43600, 43609), (44016, 44025), (65296, 65305), (66720,
   66729), (68912, 68921), (69734, 69743), (69872, 69881), (69942, 69951), (70096, 70105),
   (70384, 70393), (70736, 70745), (70864, 70873), (71248, 71257), (71360, 71369), (71472,
   71481), (71904, 71913), (72016, 72025), (72784, 72793), (73040, 73049), (73120, 73129),
   (92768, 92777), (92864, 92873), (93008, 93017), (120782, 120831), (123200, 123209),
   (123632, 123641), (125264, 125273), (130032, 130041)]

/-- Whether a character is a Unicode decimal digit (category Nd): the
character class the regex atom `\d` matches. -/
def isNdDigit (c : Char) : Bool :=
  ndRanges.any (fun p => p.1 ≤ c.toNat && c.toNat ≤ p.2)

/-- Maximal digit-run split: `digitRun s = (d, r)` where `d` is the longest
all-digit prefix of `s` (the greedy `\d+` atom) and `r` is the remainder. -/
def digitRun : List Char → List Char × List Char
  | [] => ([], [])
  | c :: rs =>
    if isNdDigit c then
      let p := digitRun rs
      (c :: p.1, p.2)
    else ([], c :: rs)

/-- Predicate `hasVersionPrefix s` holds when `s` starts with a token matching
`\d+\.\d+\.\d+`: a nonempty digit run, a dot, a nonempty digit run, a dot,
and at least one more digit. -/
def hasVersionPrefix (s : List Char) : Bool :=
  let p1 := digitRun s
  !p1.1.isEmpty &&
    match p1.2 with
    | c1 :: r1 =>
      c1 == '.' &&
        (let p2 := digitRun r1
         !p2.1.isEmpty &&
           match p2.2 with
           | c2 :: r2 => c2 == '.' && !(digitRun r2).1.isEmpty
           | [] => false)
    | [] => false

/-- Predicate `containsVersionSegment s` holds when some suffix of `s` starts with a
`\d+\.\d+\.\d+` token, i.e. when `s` has a version segment anywhere. -/
def containsVersionSegment : List Char → Bool
  | [] => false
  | c :: rs => hasVersionPrefix (c :: rs) || containsVersionSegment rs

/-- The version group `(\d+\.\d+\.\d+.*?)` must span the rest of the core
(the part of the filename before the `.tar.gz` suffix): it must contain no
newline (`\d`, `\.`, and `.` all reject `'\n'`) and start with a
`\d+\.\d+\.\d+` token. -/
def versionRest (s : List Char) : Bool :=
  s.all (fun c => !(c == '\x0a')) && hasVersionPrefix s

/-- The literal suffix `.tar.gz` as a character list. -/
def tarGz : List Char := ".tar.gz".data

/-- The literal suffix `.tar.gz` followed by a newline: because `$` also
matches just before a newline that ends the string, `re.match` accepts a
filename ending in `".tar.gz\n"`. -/
def tarGzNl : List Char := (".tar.gz" ++ "\x0a").data

/-- Strip the `\.tar\.gz$` tail of the pattern: the match of the literal is
pinned by `$`, so it sits either at the very end of the string or just before
a final newline.  Returns the core of the filename (everything the groups
`(.+?)-(\d+\.\d+\.\d+.*?)` must cover), or `none` when the tail is absent. -/
def stripCore (s : List Char) : Option (List Char) :=
  if tarGzNl.isSuffixOf s then some (s.take (s.length - 8))
  else if tarGz.isSuffixOf s then some (s.take (s.length - 7))
  else none

/-- Scan for the non-greedy split of the core into `(.+?)` `-`
`(\d+\.\d+\.\d+.*?)`.  `acc` holds the characters consumed into the name
group so far, in reverse.  The first position whose remainder is a valid
version group wins (leftmost split); a newline stops the scan because neither
group may contain one. -/
def findSplit : List Char → List Char → Option (List Char × List Char)
  | acc, c :: rs =>
    if c == '-' && !acc.isEmpty && versionRest rs then some (acc.reverse, rs)
    else if c == '\x0a' then none
    else findSplit (c :: acc) rs
  | _, [] => none

/-- Character-list level parser for
`re.match(r'^(.+?)-(\d+\.\d+\.\d+.*?)\.tar\.gz$', filename)`. -/
def parseChars (s : List Char) : Option (List Char × List Char) :=
  match stripCore s with
  | none => none
  | some core => findSplit [] core

/-- Function `parse_package_filename` from `scripts/generate-registry.py`: returns the
`(name, version)` groups on a match and `none` on failure (the Python code
returns the pair `(None, None)`). -/
def parse_package_filename (filename : String) : Option (String × String) :=
  (parseChars filename.data).map (fun p => (String.mk p.1, String.mk p.2))

/-- A package entry of the registry: the ordered list of versions encountered
for the name, and the `latest` field.  The Python dict always stores a string
under `"latest"`; modelling the field as an `Option` lets the development also
speak about the "unset" state the specification mentions. -/
structure Entry where
  versions : List String
  latest : Option String
deriving DecidableEq, Repr

/-- The accumulated `packages` dict: an insertion-ordered association list,
mirroring Python's insertion-ordered `dict`. -/
abbrev Registry := List (String × Entry)

/-- The dict literal `{"versions": [], "latest": version}` assigned when a
name is seen for the first time (lines 43-46 of the script). -/
def newEntry (version : String) : Entry :=
  { versions := [], latest := some version }

/-- Lookup `findEntry name packages` models both `name not in packages` (via
`isSome`) and the read `packages[name]`. -/
def findEntry (name : String) : Registry → Option Entry
  | [] => none
  | (n, e) :: rest => if n = name then some e else findEntry name rest

/-- Update `setEntry name e packages` models the in-place mutation of
`packages[name]` (dict insertion order is unchanged by updates). -/
def setEntry (name : String) (e : Entry) : Registry → Registry
  | [] => []
  | (n, e0) :: rest =>
    if n = name then (n, e) :: rest else (n, e0) :: setEntry name e rest

/-- One iteration of the `for tarball in sorted(...)` loop body.  The Python
guard `if name and version:` is truthiness on strings, but the regex groups
are never empty on a match (`(.+?)` is nonempty and the version group starts
with a digit; see `parse_ne_empty` below), so it is equivalent to a
successful parse.  A fresh name is appended at the end of the dict
(insertion order), then the version is appended and `latest` assigned. -/
def processFile (packages : Registry) (filename : String) : Registry :=
  match parse_package_filename filename with
  | none => packages
  | some (name, version) =>
    let ps : Registry :=
      match findEntry name packages with
      | none => packages ++ [(name, newEntry version)]
      | some _ => packages
    match findEntry name ps with
    | some e => setEntry name { versions := e.versions ++ [version], latest := some version } ps
    | none => ps

/-- Byte-wise (code-point-wise) lexicographic `≤` on character lists,
the order Python's `sorted` uses on the archive path strings. -/
def charListLe : List Char → List Char → Bool
  | [], _ => true
  | _ :: _, [] => false
  | a :: as, b :: bs =>
    if a.toNat < b.toNat then true
    else if b.toNat < a.toNat then false
    else charListLe as bs

/-- The sorting relation on filenames. -/
def fileLe (a b : String) : Prop := charListLe a.data b.data = true

instance : DecidableRel fileLe := fun a b =>
  inferInstanceAs (Decidable (charListLe a.data b.data = true))

/-- Whether a directory entry matches the glob pattern `*.tar.gz`: `*`
matches any (possibly empty) sequence of characters, so the name must simply
end in the literal `.tar.gz` (`pathlib.Path.glob` does not exclude hidden
files). -/
def globMatch (f : String) : Bool :=
  tarGz.isSuffixOf f.data

/-- Model of `sorted(build_dir.glob("*.tar.gz"))`: the matching entries of the
directory listing in ascending lexicographic order. -/
def processedList (dirList : List String) : List String :=
  List.insertionSort fileLe (dirList.filter globMatch)

/-- Fold the loop body over a list of filenames, starting from the empty
dict `packages = {}`. -/
def buildPackages (files : List String) : Registry :=
  files.foldl processFile []

/-- The full accumulation phase of `main`: glob, sort, then fold. -/
def generateRegistryPackages (dirList : List String) : Registry :=
  buildPackages (processedList dirList)

/-- The sequence of versions contributed to package `name` by a list of
filenames processed in the given order: one version per successfully parsed
filename whose name group is `name`. -/
def versionsFor (name : String) (files : List String) : List String :=
  files.filterMap (fun f =>
    match parse_package_filename f with
    | some (m, v) => if m = name then some v else none
    | none => none)

/-! JSON serialization, mirroring `json.dumps(registry, indent=2)` followed
by `print` (which appends a newline). -/

/-- One hexadecimal digit, lower case, as emitted by `json.dumps`. -/
def hexDigit (n : Nat) : Char :=
  if n < 10 then Char.ofNat ('0'.toNat + n) else Char.ofNat ('a'.toNat + (n - 10))

/-- Four-digit hexadecimal rendering used by `\uXXXX` escapes. -/
def hex4 (n : Nat) : String :=
  String.mk [hexDigit (n / 4096 % 16), hexDigit (n / 256 % 16),
             hexDigit (n / 16 % 16), hexDigit (n % 16)]

/-- The `\uXXXX` escape of a character, with a surrogate pair above U+FFFF,
as produced by `json.dumps` with its default `ensure_ascii=True`. -/
def uEscape (c : Char) : String :=
  let n := c.toNat
  if n < 65536 then "\\u" ++ hex4 n
  else "\\u" ++ hex4 (55296 + (n - 65536) / 1024) ++ "\\u" ++ hex4 (56320 + (n - 65536) % 1024)

/-- JSON escaping of one character (Python `json.dumps` defaults). -/
def jsonEscapeChar (c : Char) : String :=
  if c == '"' then "\\\""
  else if c == '\\' then "\\\\"
  else if c == '\x0a' then "\\n"
  else if c == '\x09' then "\\t"
  else if c == '\x0d' then "\\r"
  else if c == '\x08' then "\\b"
  else if c == '\x0c' then "\\f"
  else if c.toNat < 32 || c.toNat > 126 then uEscape c
  else String.mk [c]

/-- A JSON string literal. -/
def jsonStr (s : String) : String :=
  "\"" ++ String.join (s.data.map jsonEscapeChar) ++ "\""

/-- A JSON array of strings at nesting indent `ind` (the indentation of the
line that opens the array), rendered as `json.dumps(..., indent=2)` does. -/
def renderVersions (ind : String) (vs : List String) : String :=
  if vs.isEmpty then "[]"
  else "[\x0a" ++ String.intercalate ",\x0a" (vs.map (fun v => ind ++ "  " ++ jsonStr v))
       ++ "\x0a" ++ ind ++ "]"

/-- The `latest` field value: a string, or `null` would stand for the unset
state (never produced by the script). -/
def renderLatest : Option String → String
  | some v => jsonStr v
  | none => "null"

/-- A package entry object at nesting indent `ind`. -/
def renderEntry (ind : String) (e : Entry) : String :=
  "\x7b\x0a" ++ ind ++ "  \"versions\": " ++ renderVersions (ind ++ "  ") e.versions
    ++ ",\x0a" ++ ind ++ "  \"latest\": " ++ renderLatest e.latest ++ "\x0a" ++ ind ++ "\x7d"

/-- The `packages` object at nesting indent `ind`. -/
def renderPackages (ind : String) (pkgs : Registry) : String :=
  if pkgs.isEmpty then "\x7b\x7d"
  else "\x7b\x0a" ++
    String.intercalate ",\x0a"
      (pkgs.map (fun p => ind ++ "  " ++ jsonStr p.1 ++ ": " ++ renderEntry (ind ++ "  ") p.2))
    ++ "\x0a" ++ ind ++ "\x7d"

/-- Model of `json.dumps({"packages": pkgs}, indent=2)`. -/
def renderRegistry (pkgs : Registry) : String :=
  "\x7b\x0a  \"packages\": " ++ renderPackages "  " pkgs ++ "\x0a\x7d"

/-- The text `main` writes to standard output (including the final newline
appended by `print`).  `buildDirExists` models the `build_dir.exists()`
check; `dirList` is the directory listing. -/
def mainOutput (buildDirExists : Bool) (dirList : List String) : String :=
  if !buildDirExists then renderRegistry [] ++ "\x0a"
  else renderRegistry (generateRegistryPackages dirList) ++ "\x0a"

/-! ### Lemmas about the parser -/

theorem digitRun_append_eq (s : List Char) : (digitRun s).1 ++ (digitRun s).2 = s := by
  induction s with
  | nil => rfl
  | cons c rs ih =>
    by_cases h : isNdDigit c <;> simp [digitRun, h, ih]

theorem digitRun_all_digit (s : List Char) : ∀ c ∈ (digitRun s).1, isNdDigit c = true := by
  induction s with
  | nil => simp [digitRun]
  | cons c rs ih =>
    by_cases h : isNdDigit c
    · simp only [digitRun, h, if_true]
      intro d hd
      rcases List.mem_cons.mp hd with h1 | h2
      · exact h1 ▸ h
      · exact ih d h2
    · simp [digitRun, h]

theorem isNdDigit_dot : isNdDigit '.' = false := by decide

theorem digitRun_of_digits_dot (d r : List Char) (hd : ∀ c ∈ d, isNdDigit c = true) :
    digitRun (d ++ '.' :: r) = (d, '.' :: r) := by
  induction d with
  | nil => simp [digitRun, isNdDigit_dot]
  | cons c cs ih =>
    have hc : isNdDigit c = true := hd c (List.mem_cons_self c cs)
    have ih' := ih (fun x hx => hd x (List.mem_cons_of_mem c hx))
    simp [digitRun, hc, ih']

theorem digitRun_fst_cons_digit (c : Char) (rs : List Char) (h : isNdDigit c = true) :
    (digitRun (c :: rs)).1 = c :: (digitRun rs).1 := by
  simp [digitRun, h]

theorem hasVersionPrefix_nil : hasVersionPrefix [] = false := rfl

theorem hasVersionPrefix_ne_nil {s : List Char} (h : hasVersionPrefix s = true) : s ≠ [] := by
  intro he
  rw [he, hasVersionPrefix_nil] at h
  exact Bool.false_ne_true h

theorem hasVersionPrefix_append {s : List Char} (t : List Char)
    (h : hasVersionPrefix s = true) : hasVersionPrefix (s ++ t) = true := by
  unfold hasVersionPrefix at h
  simp only [Bool.and_eq_true, Bool.not_eq_true'] at h
  obtain ⟨h1, h2⟩ := h
  rcases hr1 : (digitRun s).2 with _ | ⟨c1, r1⟩
  · rw [hr1] at h2; exact absurd h2 (by simp)
  rw [hr1] at h2
  simp only [Bool.and_eq_true, beq_iff_eq, Bool.not_eq_true'] at h2
  obtain ⟨hc1, h3, h4⟩ := h2
  subst hc1
  rcases hr2 : (digitRun r1).2 with _ | ⟨c2, r2⟩
  · rw [hr2] at h4; exact absurd h4 (by simp)
  rw [hr2] at h4
  simp only [Bool.and_eq_true, beq_iff_eq, Bool.not_eq_true'] at h4
  obtain ⟨hc2, h5⟩ := h4
  subst hc2
  obtain ⟨d1, hd1eq⟩ : ∃ d1, (digitRun s).1 = d1 := ⟨_, rfl⟩
  obtain ⟨d2, hd2eq⟩ : ∃ d2, (digitRun r1).1 = d2 := ⟨_, rfl⟩
  have hs : s = d1 ++ '.' :: r1 := by rw [← hd1eq, ← hr1, digitRun_append_eq]
  have hr1eq : r1 = d2 ++ '.' :: r2 := by rw [← hd2eq, ← hr2, digitRun_append_eq]
  have hdig1 : ∀ c ∈ d1, isNdDigit c = true := hd1eq ▸ digitRun_all_digit s
  have hdig2 : ∀ c ∈ d2, isNdDigit c = true := hd2eq ▸ digitRun_all_digit r1
  rw [hd1eq] at h1
  rw [hd2eq] at h3
  have e1 : digitRun (s ++ t) = (d1, '.' :: (r1 ++ t)) := by
    rw [hs, List.append_assoc, List.cons_append]
    exact digitRun_of_digits_dot d1 _ hdig1
  have e2 : digitRun (r1 ++ t) = (d2, '.' :: (r2 ++ t)) := by
    rw [hr1eq, List.append_assoc, List.cons_append]
    exact digitRun_of_digits_dot d2 _ hdig2
  -- the third digit run stays nonempty
  have h5' : (digitRun (r2 ++ t)).1.isEmpty = false := by
    rcases hr3 : r2 with _ | ⟨c3, rs3⟩
    · rw [hr3] at h5; exact absurd h5 (by simp [digitRun])
    have hc3 : isNdDigit c3 = true := by
      by_cases hd : isNdDigit c3
      · exact hd
      · rw [hr3] at h5
        exact absurd h5 (by simp [digitRun, hd])
    rw [List.cons_append, digitRun_fst_cons_digit c3 (rs3 ++ t) hc3]
    simp
  unfold hasVersionPrefix
  simp only [e1, e2, Bool.and_eq_true, beq_iff_eq, Bool.not_eq_true']
  exact ⟨h1, trivial, h3, trivial, h5'⟩

theorem tarGz_length : tarGz.length = 7 := rfl

theorem tarGzNl_length : tarGzNl.length = 8 := rfl

theorem not_tarGzNl_suffix (x : List Char) : tarGzNl.isSuffixOf (x ++ tarGz) = false := by
  rw [Bool.eq_false_iff]
  intro hsuf
  have hs : tarGzNl <:+ x ++ tarGz := List.isSuffixOf_iff_suffix.mp hsuf
  obtain ⟨t, ht⟩ := hs
  have h1 : (x ++ tarGz).getLast? = some 'z' := by
    rw [List.getLast?_append_of_ne_nil x (show tarGz ≠ [] by decide)]; rfl
  have h2 : (t ++ tarGzNl).getLast? = some '\x0a' := by
    rw [List.getLast?_append_of_ne_nil t (show tarGzNl ≠ [] by decide)]; rfl
  rw [ht] at h2
  rw [h1] at h2
  exact absurd (Option.some.inj h2) (by decide)

theorem stripCore_append_tarGz (x : List Char) : stripCore (x ++ tarGz) = some x := by
  unfold stripCore
  rw [not_tarGzNl_suffix x]
  have hsuf : tarGz.isSuffixOf (x ++ tarGz) = true :=
    List.isSuffixOf_iff_suffix.mpr (List.suffix_append x tarGz)
  rw [hsuf]
  simp only [Bool.false_eq_true, if_false, if_true]
  rw [List.length_append, tarGz_length, Nat.add_sub_cancel, List.take_left]

theorem stripCore_append_tarGzNl (x : List Char) : stripCore (x ++ tarGzNl) = some x := by
  unfold stripCore
  have hsuf : tarGzNl.isSuffixOf (x ++ tarGzNl) = true :=
    List.isSuffixOf_iff_suffix.mpr (List.suffix_append x tarGzNl)
  rw [hsuf]
  simp only [if_true]
  rw [List.length_append, tarGzNl_length, Nat.add_sub_cancel, List.take_left]

theorem stripCore_eq_some {s core : List Char} (h : stripCore s = some core) :
    s = core ++ tarGz ∨ s = core ++ tarGzNl := by
  unfold stripCore at h
  by_cases h1 : tarGzNl.isSuffixOf s
  · simp only [h1, if_true] at h
    obtain ⟨t, ht⟩ := List.isSuffixOf_iff_suffix.mp h1
    right
    have hlen : s.length - 8 = t.length := by
      rw [← ht, List.length_append, tarGzNl_length, Nat.add_sub_cancel]
    have : core = t := by
      have := Option.some.inj h
      rw [← this, hlen, ← ht, List.take_left]
    rw [this, ht]
  · rw [Bool.eq_false_iff.mpr h1] at h
    simp only [Bool.false_eq_true, if_false] at h
    by_cases h2 : tarGz.isSuffixOf s
    · simp only [h2, if_true] at h
      obtain ⟨t, ht⟩ := List.isSuffixOf_iff_suffix.mp h2
      left
      have hlen : s.length - 7 = t.length := by
        rw [← ht, List.length_append, tarGz_length, Nat.add_sub_cancel]
      have : core = t := by
        have := Option.some.inj h
        rw [← this, hlen, ← ht, List.take_left]
      rw [this, ht]
    · rw [Bool.eq_false_iff.mpr h2] at h
      simp at h

theorem stripCore_eq_none {s : List Char} (h1 : tarGz.isSuffixOf s = false)
    (h2 : tarGzNl.isSuffixOf s = false) : stripCore s = none := by
  unfold stripCore
  rw [h1, h2]
  simp

theorem findSplit_sound :
    ∀ (rest acc : List Char) {n v : List Char}, findSplit acc rest = some (n, v) →
      ∃ mid, rest = mid ++ '-' :: v ∧ n = acc.reverse ++ mid ∧ n ≠ [] ∧ versionRest v = true := by
  intro rest
  induction rest with
  | nil => intro acc n v h; exact absurd h (by simp [findSplit])
  | cons c rs ih =>
    intro acc n v h
    unfold findSplit at h
    by_cases hg : (c == '-' && !acc.isEmpty && versionRest rs) = true
    · rw [if_pos hg] at h
      have hp := Option.some.inj h
      have h1 : acc.reverse = n := congrArg Prod.fst hp
      have h2 : rs = v := congrArg Prod.snd hp
      rw [Bool.and_eq_true, Bool.and_eq_true] at hg
      obtain ⟨⟨hc, hae⟩, hvr⟩ := hg
      have hc' : c = '-' := eq_of_beq hc
      subst hc'
      refine ⟨[], by rw [← h2]; rfl, by simp [← h1], ?_, by rw [← h2]; exact hvr⟩
      rw [← h1]
      intro habs
      rw [List.reverse_eq_nil_iff] at habs
      rw [habs] at hae
      exact absurd hae (by simp)
    · rw [if_neg hg] at h
      by_cases hnl : (c == '\x0a') = true
      · rw [if_pos hnl] at h; exact absurd h (by simp)
      · rw [if_neg hnl] at h
        obtain ⟨mid, hmid, hn, hne, hvr⟩ := ih (c :: acc) h
        refine ⟨c :: mid, by rw [List.cons_append, hmid], ?_, hne, hvr⟩
        rw [hn, List.reverse_cons, List.append_assoc, List.singleton_append]

theorem findSplit_complete :
    ∀ (n acc v : List Char), (∀ c ∈ n, c ≠ '\x0a') → versionRest v = true →
      (acc = [] → n ≠ []) →
      (∀ n1 n2, n = n1 ++ '-' :: n2 → acc.reverse ++ n1 = [] ∨ versionRest (n2 ++ '-' :: v) = false) →
      findSplit acc (n ++ '-' :: v) = some (acc.reverse ++ n, v) := by
  intro n
  induction n with
  | nil =>
    intro acc v hnl hv hne _
    have hacc : acc ≠ [] := by
      intro h; exact (hne h) rfl
    have hg : ('-' == '-' && !acc.isEmpty && versionRest v) = true := by
      simp [hv, List.isEmpty_iff, hacc]
    rw [List.nil_append, findSplit, if_pos hg, List.append_nil]
  | cons c n' ih =>
    intro acc v hnl hv _ hsplit
    have hcnl : c ≠ '\x0a' := hnl c (List.mem_cons_self c n')
    rw [List.cons_append, findSplit]
    have hg : (c == '-' && !acc.isEmpty && versionRest (n' ++ '-' :: v)) = false := by
      by_cases hc : c = '-'
      · subst hc
        rcases hsplit [] n' rfl with h | h
        · rw [List.append_nil, List.reverse_eq_nil_iff] at h
          simp [h]
        · simp [h]
      · simp [hc]
    rw [if_neg (by simp [hg]), if_neg (by simpa using hcnl)]
    have ihsplit : ∀ n1 n2, n' = n1 ++ '-' :: n2 →
        (c :: acc).reverse ++ n1 = [] ∨ versionRest (n2 ++ '-' :: v) = false := by
      intro n1 n2 hdec
      rcases hsplit (c :: n1) n2 (by rw [hdec, List.cons_append]) with h | h
      · exact absurd h (by simp)
      · exact Or.inr h
    have := ih (c :: acc) v (fun x hx => hnl x (List.mem_cons_of_mem c hx)) hv
      (by intro h; exact absurd h (by simp)) ihsplit
    rw [this, List.reverse_cons, List.append_assoc, List.singleton_append]

theorem versionRest_false_of_no_versionToken {x : List Char} (h : hasVersionPrefix x = false) :
    versionRest x = false := by
  unfold versionRest
  rw [h, Bool.and_false]

theorem versionRest_eq_true_iff {v : List Char} :
    versionRest v = true ↔ ((∀ c ∈ v, c ≠ '\x0a') ∧ hasVersionPrefix v = true) := by
  unfold versionRest
  rw [Bool.and_eq_true, List.all_eq_true]
  constructor
  · rintro ⟨h1, h2⟩
    exact ⟨fun c hc => by simpa using h1 c hc, h2⟩
  · rintro ⟨h1, h2⟩
    exact ⟨fun c hc => by simpa using h1 c hc, h2⟩

theorem parseChars_sound {s n v : List Char} (h : parseChars s = some (n, v)) :
    (s = (n ++ '-' :: v) ++ tarGz ∨ s = (n ++ '-' :: v) ++ tarGzNl)
      ∧ n ≠ [] ∧ versionRest v = true := by
  unfold parseChars at h
  rcases hsc : stripCore s with _ | core
  · rw [hsc] at h; exact absurd h (by simp)
  · rw [hsc] at h
    obtain ⟨mid, hmid, hn, hne, hvr⟩ := findSplit_sound core [] h
    rw [List.reverse_nil, List.nil_append] at hn
    subst hn
    rcases stripCore_eq_some hsc with hcase | hcase
    · exact ⟨Or.inl (by rw [hcase, hmid]), hne, hvr⟩
    · exact ⟨Or.inr (by rw [hcase, hmid]), hne, hvr⟩

theorem parseChars_complete {n v : List Char} (hn : n ≠ []) (hnl : ∀ c ∈ n, c ≠ '\x0a')
    (hv : versionRest v = true)
    (hsplit : ∀ n1 n2, n = n1 ++ '-' :: n2 → n1 ≠ [] → versionRest (n2 ++ '-' :: v) = false) :
    parseChars ((n ++ '-' :: v) ++ tarGz) = some (n, v) := by
  unfold parseChars
  rw [stripCore_append_tarGz]
  have hsplit' : ∀ n1 n2, n = n1 ++ '-' :: n2 →
      ([] : List Char).reverse ++ n1 = [] ∨ versionRest (n2 ++ '-' :: v) = false := by
    intro n1 n2 hdec
    by_cases h1 : n1 = []
    · exact Or.inl (by rw [h1, List.reverse_nil, List.nil_append])
    · exact Or.inr (hsplit n1 n2 hdec h1)
  have hc := findSplit_complete n [] v hnl hv (fun _ => hn) hsplit'
  rw [List.reverse_nil, List.nil_append] at hc
  exact hc

theorem parse_eq_some_iff {f : String} {n v : String} :
    parse_package_filename f = some (n, v) ↔ parseChars f.data = some (n.data, v.data) := by
  unfold parse_package_filename
  constructor
  · intro h
    rcases hp : parseChars f.data with _ | ⟨a, b⟩
    · rw [hp] at h; exact absurd h (by simp)
    · rw [hp] at h
      have hpair := Option.some.inj h
      have h1 : n = String.mk a := (congrArg Prod.fst hpair).symm
      have h2 : v = String.mk b := (congrArg Prod.snd hpair).symm
      subst h1
      subst h2
      rfl
  · intro h
    rw [h]
    rfl

theorem parse_eq_none_iff {f : String} :
    parse_package_filename f = none ↔ parseChars f.data = none := by
  unfold parse_package_filename
  rcases hp : parseChars f.data with _ | ⟨a, b⟩
  · simp
  · simp

/-- On a successful match neither regex group is the empty string; this is
what makes the Python truthiness test `if name and version:` equivalent to a
successful parse. -/
theorem parse_ne_empty {f n v : String} (h : parse_package_filename f = some (n, v)) :
    n ≠ "" ∧ v ≠ "" := by
  have hp := parse_eq_some_iff.mp h
  obtain ⟨_, hne, hvr⟩ := parseChars_sound hp
  have hvne : v.data ≠ [] := hasVersionPrefix_ne_nil (versionRest_eq_true_iff.mp hvr).2
  constructor
  · intro habs; rw [habs] at hne; exact hne rfl
  · intro habs; rw [habs] at hvne; exact hvne rfl

theorem contains_of_suffix :
    ∀ (s v : List Char), v <:+ s → hasVersionPrefix v = true → containsVersionSegment s = true := by
  intro s
  induction s with
  | nil =>
    intro v hv hp
    rw [List.suffix_nil] at hv
    rw [hv] at hp
    exact absurd hp (by rw [hasVersionPrefix_nil]; simp)
  | cons c rs ih =>
    intro v hv hp
    unfold containsVersionSegment
    rcases List.suffix_cons_iff.mp hv with h | h
    · rw [← h, hp, Bool.true_or]
    · rw [ih v h hp, Bool.or_true]

/-! ### Lemmas about the accumulator -/

theorem findEntry_nil (name : String) : findEntry name [] = none := rfl

theorem findEntry_cons (name n : String) (e : Entry) (rest : Registry) :
    findEntry name ((n, e) :: rest) = if n = name then some e else findEntry name rest := rfl

theorem setEntry_nil (name : String) (e : Entry) : setEntry name e [] = [] := rfl

theorem setEntry_cons (name : String) (e : Entry) (n : String) (e0 : Entry) (rest : Registry) :
    setEntry name e ((n, e0) :: rest) =
      if n = name then (n, e) :: rest else (n, e0) :: setEntry name e rest := rfl

theorem findEntry_append_of_none {name : String} {xs : Registry} (m : String) (e : Entry)
    (h : findEntry name xs = none) :
    findEntry name (xs ++ [(m, e)]) = if m = name then some e else none := by
  induction xs with
  | nil => rfl
  | cons p rest ih =>
    obtain ⟨pn, pe⟩ := p
    rw [findEntry_cons] at h
    rw [List.cons_append, findEntry_cons]
    by_cases hp : pn = name
    · rw [if_pos hp] at h; exact absurd h (by simp)
    · rw [if_neg hp] at h
      rw [if_neg hp]
      exact ih h

theorem findEntry_append_ne {name m : String} {xs : Registry} (e : Entry) (h : m ≠ name) :
    findEntry name (xs ++ [(m, e)]) = findEntry name xs := by
  induction xs with
  | nil => simp [findEntry_nil, findEntry_cons, h]
  | cons p rest ih =>
    obtain ⟨pn, pe⟩ := p
    rw [List.cons_append, findEntry_cons, findEntry_cons]
    by_cases hp : pn = name
    · rw [if_pos hp, if_pos hp]
    · rw [if_neg hp, if_neg hp]
      exact ih

theorem findEntry_setEntry_ne {name m : String} {xs : Registry} (e : Entry) (h : m ≠ name) :
    findEntry name (setEntry m e xs) = findEntry name xs := by
  induction xs with
  | nil => rfl
  | cons p rest ih =>
    obtain ⟨pn, pe⟩ := p
    rw [setEntry_cons]
    by_cases hp : pn = m
    · rw [if_pos hp, findEntry_cons, findEntry_cons]
      have hne : ¬ pn = name := by rw [hp]; exact h
      rw [if_neg hne, if_neg hne]
    · rw [if_neg hp, findEntry_cons, findEntry_cons]
      by_cases hq : pn = name
      · rw [if_pos hq, if_pos hq]
      · rw [if_neg hq, if_neg hq]
        exact ih

theorem findEntry_setEntry_self {m : String} {xs : Registry} {e0 : Entry} (e : Entry)
    (h : findEntry m xs = some e0) :
    findEntry m (setEntry m e xs) = some e := by
  induction xs with
  | nil => exact absurd h (by simp [findEntry_nil])
  | cons p rest ih =>
    obtain ⟨pn, pe⟩ := p
    rw [findEntry_cons] at h
    rw [setEntry_cons]
    by_cases hp : pn = m
    · rw [if_pos hp, findEntry_cons, if_pos hp]
    · rw [if_neg hp] at h
      rw [if_neg hp, findEntry_cons, if_neg hp]
      exact ih h

theorem setEntry_append_of_none {name : String} {xs : Registry} (e e0 : Entry)
    (h : findEntry name xs = none) :
    setEntry name e (xs ++ [(name, e0)]) = xs ++ [(name, e)] := by
  induction xs with
  | nil => simp [setEntry_cons]
  | cons p rest ih =>
    obtain ⟨pn, pe⟩ := p
    rw [findEntry_cons] at h
    by_cases hp : pn = name
    · rw [if_pos hp] at h; exact absurd h (by simp)
    · rw [if_neg hp] at h
      rw [List.cons_append, setEntry_cons, if_neg hp, ih h, List.cons_append]

theorem processFile_parse_none {acc : Registry} {f : String}
    (h : parse_package_filename f = none) : processFile acc f = acc := by
  simp only [processFile, h]

theorem processFile_fresh {acc : Registry} {f name version : String}
    (h : parse_package_filename f = some (name, version))
    (hf : findEntry name acc = none) :
    processFile acc f = acc ++ [(name, { versions := [version], latest := some version })] := by
  simp only [processFile, h, hf]
  rw [findEntry_append_of_none name (newEntry version) hf, if_pos rfl]
  exact setEntry_append_of_none _ _ hf

theorem processFile_seen {acc : Registry} {f name version : String} {e : Entry}
    (h : parse_package_filename f = some (name, version))
    (hf : findEntry name acc = some e) :
    processFile acc f =
      setEntry name { versions := e.versions ++ [version], latest := some version } acc := by
  simp only [processFile, h, hf]

/-- Master characterization of the accumulator: after folding any list of
filenames, the entry recorded for `name` carries exactly the versions
contributed to `name`, in processing order, with `latest` equal to the last
one; a name with no contributions has no entry. -/
theorem findEntry_buildPackages (l : List String) (name : String) :
    findEntry name (buildPackages l) =
      if versionsFor name l = [] then none
      else some { versions := versionsFor name l, latest := (versionsFor name l).getLast? } := by
  induction l using List.reverseRecOn with
  | nil => simp [buildPackages, versionsFor, findEntry_nil]
  | append_singleton l f ih =>
    have hb : buildPackages (l ++ [f]) = processFile (buildPackages l) f := by
      simp [buildPackages]
    have hvf : versionsFor name (l ++ [f]) = versionsFor name l ++ versionsFor name [f] := by
      simp [versionsFor]
    rw [hb, hvf]
    rcases hp : parse_package_filename f with _ | ⟨m, v⟩
    · have h1 : versionsFor name [f] = [] := by simp [versionsFor, hp]
      rw [processFile_parse_none hp, h1, List.append_nil]
      exact ih
    · by_cases hm : m = name
      · subst hm
        have h1 : versionsFor m [f] = [v] := by simp [versionsFor, hp]
        rw [h1]
        rcases hfe : findEntry m (buildPackages l) with _ | e
        · have hold : versionsFor m l = [] := by
            by_contra hne
            rw [ih, if_neg hne] at hfe
            exact absurd hfe (by simp)
          rw [processFile_fresh hp hfe]
          rw [findEntry_append_of_none m _ hfe, if_pos rfl]
          rw [hold, List.nil_append]
          rw [if_neg (by simp)]
          rfl
        · have hold : versionsFor m l ≠ [] := by
            intro hne
            rw [ih, if_pos hne] at hfe
            exact absurd hfe (by simp)
          have he : e = { versions := versionsFor m l, latest := (versionsFor m l).getLast? } := by
            rw [ih, if_neg hold] at hfe
            exact (Option.some.inj hfe).symm
          rw [processFile_seen hp hfe]
          rw [findEntry_setEntry_self _ hfe]
          rw [he]
          rw [if_neg (by simp)]
          rw [List.getLast?_concat]
      · have h1 : versionsFor name [f] = [] := by simp [versionsFor, hp, hm]
        rw [h1, List.append_nil]
        rcases hfe : findEntry m (buildPackages l) with _ | e
        · rw [processFile_fresh hp hfe]
          rw [findEntry_append_ne _ hm]
          exact ih
        · rw [processFile_seen hp hfe]
          rw [findEntry_setEntry_ne _ hm]
          exact ih

/-! ### The sort is a function of the multiset of directory entries -/

theorem char_eq_of_toNat_eq {x y : Char} (h : x.toNat = y.toNat) : x = y := by
  rw [← Char.ofNat_toNat x, ← Char.ofNat_toNat y, h]

theorem charListLe_total : ∀ a b : List Char, charListLe a b = true ∨ charListLe b a = true := by
  intro a
  induction a with
  | nil => intro b; exact Or.inl rfl
  | cons x xs ih =>
    intro b
    cases b with
    | nil => exact Or.inr rfl
    | cons y ys =>
      rcases Nat.lt_trichotomy x.toNat y.toNat with h | h | h
      · left; simp [charListLe, h]
      · rcases ih ys with h2 | h2
        · left; simp [charListLe, h, Nat.lt_irrefl, h2]
        · right; simp [charListLe, h.symm, Nat.lt_irrefl, h2]
      · right; simp [charListLe, h]

theorem charListLe_trans :
    ∀ a b c : List Char, charListLe a b = true → charListLe b c = true → charListLe a c = true := by
  intro a
  induction a with
  | nil => intro b c _ _; rfl
  | cons x xs ih =>
    intro b c hab hbc
    cases b with
    | nil => exact absurd hab (by simp [charListLe])
    | cons y ys =>
      cases c with
      | nil => exact absurd hbc (by simp [charListLe])
      | cons z zs =>
        by_cases h1 : x.toNat < y.toNat
        · by_cases h2 : y.toNat < z.toNat
          · have h3 : x.toNat < z.toNat := Nat.lt_trans h1 h2
            simp [charListLe, h3]
          · by_cases h3 : z.toNat < y.toNat
            · simp [charListLe, h2, h3] at hbc
            · have hyz : y.toNat = z.toNat :=
                Nat.le_antisymm (Nat.le_of_not_lt h3) (Nat.le_of_not_lt h2)
              have h4 : x.toNat < z.toNat := hyz ▸ h1
              simp [charListLe, h4]
        · by_cases h1' : y.toNat < x.toNat
          · simp [charListLe, h1, h1'] at hab
          · have hxy : x.toNat = y.toNat :=
              Nat.le_antisymm (Nat.le_of_not_lt h1') (Nat.le_of_not_lt h1)
            simp only [charListLe, if_neg h1, if_neg h1'] at hab
            by_cases h2 : y.toNat < z.toNat
            · have h4 : x.toNat < z.toNat := hxy ▸ h2
              simp [charListLe, h4]
            · by_cases h3 : z.toNat < y.toNat
              · simp [charListLe, h2, h3] at hbc
              · have hyz : y.toNat = z.toNat :=
                  Nat.le_antisymm (Nat.le_of_not_lt h3) (Nat.le_of_not_lt h2)
                simp only [charListLe, if_neg h2, if_neg h3] at hbc
                have hxz : x.toNat = z.toNat := hxy.trans hyz
                have hn1 : ¬ x.toNat < z.toNat := by rw [hxz]; exact Nat.lt_irrefl _
                have hn2 : ¬ z.toNat < x.toNat := by rw [hxz]; exact Nat.lt_irrefl _
                simp only [charListLe, if_neg hn1, if_neg hn2]
                exact ih ys zs hab hbc

theorem charListLe_antisymm :
    ∀ a b : List Char, charListLe a b = true → charListLe b a = true → a = b := by
  intro a
  induction a with
  | nil =>
    intro b _ hba
    cases b with
    | nil => rfl
    | cons y ys => exact absurd hba (by simp [charListLe])
  | cons x xs ih =>
    intro b hab hba
    cases b with
    | nil => exact absurd hab (by simp [charListLe])
    | cons y ys =>
      rcases Nat.lt_trichotomy x.toNat y.toNat with h | h | h
      · simp [charListLe, h, Nat.lt_asymm h] at hba
      · have hn1 : ¬ x.toNat < y.toNat := by rw [h]; exact Nat.lt_irrefl _
        have hn2 : ¬ y.toNat < x.toNat := by rw [h]; exact Nat.lt_irrefl _
        simp only [charListLe, if_neg hn1, if_neg hn2] at hab hba
        rw [char_eq_of_toNat_eq h, ih ys hab hba]
      · simp [charListLe, h, Nat.lt_asymm h] at hab

/-- Two directory listings with the same entries (in any order) produce the
same processed file sequence: the scan sorts, so the output depends only on
the multiset of entries. -/
theorem processedList_perm_invariant {l1 l2 : List String} (h : l1.Perm l2) :
    processedList l1 = processedList l2 := by
  haveI : IsTotal String fileLe := ⟨fun a b => charListLe_total a.data b.data⟩
  haveI : IsTrans String fileLe := ⟨fun a b c => charListLe_trans a.data b.data c.data⟩
  haveI : IsAntisymm String fileLe :=
    ⟨fun a b h1 h2 => String.ext (charListLe_antisymm a.data b.data h1 h2)⟩
  have hf : (l1.filter globMatch).Perm (l2.filter globMatch) := h.filter globMatch
  have hp : (List.insertionSort fileLe (l1.filter globMatch)).Perm
      (List.insertionSort fileLe (l2.filter globMatch)) :=
    ((List.perm_insertionSort fileLe _).trans hf).trans (List.perm_insertionSort fileLe _).symm
  exact List.eq_of_perm_of_sorted hp
    (List.sorted_insertionSort fileLe _) (List.sorted_insertionSort fileLe _)

/-! ### Claims -/

/-- Claim C1, counterexample.  The claim as stated — for EVERY name string
`n` and version-shaped `v`, parsing `n ++ "-" ++ v ++ ".tar.gz"` yields
`(n, v)` — is false: the non-greedy name group takes the LEFTMOST split, so
for `n = "a-1.2.3"` and `v = "4.5.6"` the parser returns
`("a", "1.2.3-4.5.6")` instead of `("a-1.2.3", "4.5.6")`. -/
theorem claim_C1_counterexample :
    hasVersionPrefix "4.5.6".data = true ∧
      parse_package_filename ("a-1.2.3" ++ "-" ++ "4.5.6" ++ ".tar.gz") =
        some ("a", "1.2.3-4.5.6") ∧
      parse_package_filename ("a-1.2.3" ++ "-" ++ "4.5.6" ++ ".tar.gz") ≠
        some ("a-1.2.3", "4.5.6") := by
  refine ⟨by decide, by decide, by decide⟩

/-- Claim C1, amended.  For every non-empty name `n` and version-shaped `v`
(a `\d+\.\d+\.\d+` token plus arbitrary suffix), neither containing a
newline, such that no proper non-empty prefix of `n` is followed by a dash
and a version-shaped remainder (i.e. the leftmost split is the one at the
end of `n`), parsing `n ++ "-" ++ v ++ ".tar.gz"` returns exactly
`(n, v)`. -/
theorem claim_C1 (n v : String) (hne : n ≠ "") (hnl : ∀ c ∈ n.data, c ≠ '\x0a')
    (hvnl : ∀ c ∈ v.data, c ≠ '\x0a') (hv : hasVersionPrefix v.data = true)
    (hsplit : ∀ n1 n2, n.data = n1 ++ '-' :: n2 → n1 ≠ [] →
      hasVersionPrefix (n2 ++ '-' :: v.data) = false) :
    parse_package_filename (n ++ "-" ++ v ++ ".tar.gz") = some (n, v) := by
  rw [parse_eq_some_iff]
  have hdata : (n ++ "-" ++ v ++ ".tar.gz").data = (n.data ++ '-' :: v.data) ++ tarGz := by
    show ((n.data ++ "-".data) ++ v.data) ++ ".tar.gz".data = _
    simp only [List.append_assoc]
    rfl
  rw [hdata]
  apply parseChars_complete
  · intro h
    exact hne (String.ext (by rw [h]))
  · exact hnl
  · exact versionRest_eq_true_iff.mpr ⟨hvnl, hv⟩
  · intro n1 n2 hdec hne1
    exact versionRest_false_of_no_versionToken (hsplit n1 n2 hdec hne1)

/-- Claim C1, witness. -/
theorem claim_C1_witness :
    parse_package_filename ("base" ++ "-" ++ "1.0.0" ++ ".tar.gz") = some ("base", "1.0.0") :=
  claim_C1 "base" "1.0.0" (by decide) (by decide) (by decide) (by decide)
    (by
      intro n1 n2 h h1
      exfalso
      have hmem : '-' ∈ "base".data := by
        rw [h]
        exact List.mem_append_right n1 (List.mem_cons_self '-' n2)
      revert hmem
      decide)

/-- Claim C3.  On the directory containing exactly the three files of the
specification's worked example, processed in ascending filename order, the
builder produces exactly the documented registry. -/
theorem claim_C3 :
    generateRegistryPackages
        ["base-dev-1.0.0.tar.gz", "base-dev-1.2.0.tar.gz", "tools-0.9.1.tar.gz"] =
      [("base-dev", { versions := ["1.0.0", "1.2.0"], latest := some "1.2.0" }),
       ("tools", { versions := ["0.9.1"], latest := some "0.9.1" })] := by
  decide

/-- Claim C4.  A missing build directory, or one with no `*.tar.gz` entries,
produces exactly the text `{"packages": {}}` (2-space indent, with the final
newline appended by `print`), and the run succeeds (total function, no error
path). -/
theorem claim_C4 (dirList : List String) :
    mainOutput false dirList = "\x7b\x0a  \"packages\": \x7b\x7d\x0a\x7d\x0a" ∧
      (dirList.filter globMatch = [] →
        mainOutput true dirList = "\x7b\x0a  \"packages\": \x7b\x7d\x0a\x7d\x0a") := by
  constructor
  · rfl
  · intro h
    show renderRegistry (generateRegistryPackages dirList) ++ "\x0a" = _
    rw [generateRegistryPackages, processedList, h]
    rfl

/-- Claim C4, witness. -/
theorem claim_C4_witness :
    mainOutput true ["README.md"] = "\x7b\x0a  \"packages\": \x7b\x7d\x0a\x7d\x0a" :=
  (claim_C4 ["README.md"]).2 (by decide)

/-- Claim C2.  (1) For every package name in the output, `latest` is the
version of the most recently processed archive of that name, in ascending
filename-sort order, with no numeric comparison.  (2) In particular, for the
listing `pkg-2.0.0.tar.gz`, `pkg-10.0.0.tar.gz` the filename sort puts
`pkg-10.0.0.tar.gz` first (`'1' < '2'`), so the numerically lower `2.0.0`
is processed last and wins over the numerically higher `10.0.0`. -/
theorem claim_C2 :
    (∀ (files : List String) (name : String) (e : Entry),
        findEntry name (generateRegistryPackages files) = some e →
          e.latest = (versionsFor name (processedList files)).getLast?) ∧
      findEntry "pkg" (generateRegistryPackages ["pkg-2.0.0.tar.gz", "pkg-10.0.0.tar.gz"]) =
        some { versions := ["10.0.0", "2.0.0"], latest := some "2.0.0" } := by
  constructor
  · intro files name e h
    rw [generateRegistryPackages, findEntry_buildPackages] at h
    by_cases hv : versionsFor name (processedList files) = []
    · rw [if_pos hv] at h; exact absurd h (by simp)
    · rw [if_neg hv] at h
      rw [← Option.some.inj h]
  · decide

/-- Claim C2, witness. -/
theorem claim_C2_witness :
    ({ versions := ["1.0.0"], latest := some "1.0.0" } : Entry).latest =
      (versionsFor "a" (processedList ["a-1.0.0.tar.gz"])).getLast? :=
  claim_C2.1 ["a-1.0.0.tar.gz"] "a" { versions := ["1.0.0"], latest := some "1.0.0" } (by decide)

/-- Claim C5, counterexample.  The claim — every filename that does not end
in `.tar.gz` parses to no match — fails: `$` also matches just before a
trailing newline, so `"a-1.2.3.tar.gz\x0a"` does not end in `.tar.gz` yet
parses to `("a", "1.2.3")`. -/
theorem claim_C5_counterexample :
    tarGz.isSuffixOf ("a-1.2.3.tar.gz" ++ "\x0a").data = false ∧
      parse_package_filename ("a-1.2.3.tar.gz" ++ "\x0a") = some ("a", "1.2.3") := by
  refine ⟨by decide, by decide⟩

/-- Claim C5, amended.  A filename that neither ends in `.tar.gz` nor in
`.tar.gz` followed by a single trailing newline, or that contains no
`\d+\.\d+\.\d+` version segment at all, parses to no match (and no error is
raised: the parser is a total function into `Option`). -/
theorem claim_C5 (f : String)
    (h : (tarGz.isSuffixOf f.data = false ∧ tarGzNl.isSuffixOf f.data = false) ∨
      containsVersionSegment f.data = false) :
    parse_package_filename f = none := by
  rw [parse_eq_none_iff]
  rcases h with ⟨h1, h2⟩ | h
  · unfold parseChars
    rw [stripCore_eq_none h1 h2]
  · rcases hp : parseChars f.data with _ | ⟨n, v⟩
    · rfl
    · exfalso
      obtain ⟨hcase, hne, hvr⟩ := parseChars_sound hp
      have hvp : hasVersionPrefix v = true := (versionRest_eq_true_iff.mp hvr).2
      rcases hcase with hc | hc
      · have hsf : (v ++ tarGz) <:+ f.data := by
          refine ⟨n ++ ['-'], ?_⟩
          rw [hc]
          simp
        have hcv := contains_of_suffix f.data (v ++ tarGz) hsf (hasVersionPrefix_append tarGz hvp)
        rw [h] at hcv
        exact Bool.false_ne_true hcv
      · have hsf : (v ++ tarGzNl) <:+ f.data := by
          refine ⟨n ++ ['-'], ?_⟩
          rw [hc]
          simp
        have hcv := contains_of_suffix f.data (v ++ tarGzNl) hsf (hasVersionPrefix_append tarGzNl hvp)
        rw [h] at hcv
        exact Bool.false_ne_true hcv

/-- Claim C5, witness. -/
theorem claim_C5_witness : parse_package_filename "pkg.tar.gz" = none :=
  claim_C5 "pkg.tar.gz" (Or.inr (by decide))

/-- Claim C6.  Every entry's `versions` list is exactly the sequence of
versions of that name's successfully parsed archives, in processing
(ascending filename) order; appends are unconditional, so duplicates are
kept (see the witness, which processes the same filename twice). -/
theorem claim_C6 (files : List String) (name : String) (e : Entry)
    (h : findEntry name (generateRegistryPackages files) = some e) :
    e.versions = versionsFor name (processedList files) := by
  rw [generateRegistryPackages, findEntry_buildPackages] at h
  by_cases hv : versionsFor name (processedList files) = []
  · rw [if_pos hv] at h; exact absurd h (by simp)
  · rw [if_neg hv] at h
    rw [← Option.some.inj h]

/-- Claim C6, witness: the same archive listed twice is recorded twice. -/
theorem claim_C6_witness :
    ({ versions := ["1.0.0", "1.0.0"], latest := some "1.0.0" } : Entry).versions =
      versionsFor "dup" (processedList ["dup-1.0.0.tar.gz", "dup-1.0.0.tar.gz"]) :=
  claim_C6 ["dup-1.0.0.tar.gz", "dup-1.0.0.tar.gz"] "dup"
    { versions := ["1.0.0", "1.0.0"], latest := some "1.0.0" } (by decide)

/-- Claim C7, counterexample.  The claim says a first-seen name's entry is
created with `latest` unset; in the code the creating dict literal is
`{"versions": [], "latest": version}`, so `latest` already holds the
incoming version at the moment of creation. -/
theorem claim_C7_counterexample : ¬ (newEntry "1.0.0").latest = none := by decide

/-- Claim C7, amended.  When a name is seen for the first time its entry is
created with an empty version sequence and with `latest` already set to the
incoming version; the version is then appended, so the observable entry
after the iteration is `{versions := [version], latest := some version}`. -/
theorem claim_C7 (acc : Registry) (f name version : String)
    (hp : parse_package_filename f = some (name, version))
    (hfresh : findEntry name acc = none) :
    (newEntry version).versions = [] ∧ (newEntry version).latest = some version ∧
      findEntry name (processFile acc f) =
        some { versions := (newEntry version).versions ++ [version], latest := some version } := by
  refine ⟨rfl, rfl, ?_⟩
  rw [processFile_fresh hp hfresh]
  rw [findEntry_append_of_none name _ hfresh, if_pos rfl]
  rfl

/-- Claim C7, witness. -/
theorem claim_C7_witness :
    (newEntry "0.1.0").versions = [] ∧ (newEntry "0.1.0").latest = some "0.1.0" ∧
      findEntry "w" (processFile [] "w-0.1.0.tar.gz") =
        some { versions := (newEntry "0.1.0").versions ++ ["0.1.0"], latest := some "0.1.0" } :=
  claim_C7 [] "w-0.1.0.tar.gz" "w" "0.1.0" (by decide) rfl

/-- Claim C8.  The builder is deterministic and its output is a pure
function of the directory contents: for any two listings of the same
entries (any permutation — in particular the identical listing), the output
text is byte-identical, because the scan sorts the entries before the
fold. -/
theorem claim_C8 (l1 l2 : List String) (h : l1.Perm l2) :
    mainOutput true l1 = mainOutput true l2 := by
  show renderRegistry (generateRegistryPackages l1) ++ "\x0a" =
    renderRegistry (generateRegistryPackages l2) ++ "\x0a"
  rw [generateRegistryPackages, generateRegistryPackages, processedList_perm_invariant h]

/-- Claim C8, witness. -/
theorem claim_C8_witness :
    mainOutput true ["b-1.0.0.tar.gz", "a-2.0.0.tar.gz"] =
      mainOutput true ["a-2.0.0.tar.gz", "b-1.0.0.tar.gz"] :=
  claim_C8 ["b-1.0.0.tar.gz", "a-2.0.0.tar.gz"] ["a-2.0.0.tar.gz", "b-1.0.0.tar.gz"]
    (List.Perm.swap "a-2.0.0.tar.gz" "b-1.0.0.tar.gz" [])

/-- Claim C9, counterexample.  The round-trip claim — on every successful
parse `(n, v)` the concatenation `n ++ "-" ++ v ++ ".tar.gz"` equals the
input exactly — fails on an input with a trailing newline, which parses but
is one character longer than the reconstruction. -/
theorem claim_C9_counterexample :
    parse_package_filename ("b-9.8.7.tar.gz" ++ "\x0a") = some ("b", "9.8.7") ∧
      "b" ++ "-" ++ "9.8.7" ++ ".tar.gz" ≠ "b-9.8.7.tar.gz" ++ "\x0a" := by
  refine ⟨by decide, by decide⟩

/-- Claim C9, amended.  On every successful parse `(n, v)` of `f`, the
concatenation `n ++ "-" ++ v ++ ".tar.gz"` equals `f` exactly, or `f` is
that concatenation followed by a single newline; moreover `n` is non-empty
and `v` begins with a `\d+\.\d+\.\d+` token. -/
theorem claim_C9 (f n v : String) (h : parse_package_filename f = some (n, v)) :
    (n ++ "-" ++ v ++ ".tar.gz" = f ∨ n ++ "-" ++ v ++ ".tar.gz" ++ "\x0a" = f) ∧
      n ≠ "" ∧ hasVersionPrefix v.data = true := by
  have hp := parse_eq_some_iff.mp h
  obtain ⟨hcase, hne, hvr⟩ := parseChars_sound hp
  refine ⟨?_, (parse_ne_empty h).1, (versionRest_eq_true_iff.mp hvr).2⟩
  rcases hcase with hc | hc
  · left
    apply String.ext
    show ((n.data ++ "-".data) ++ v.data) ++ ".tar.gz".data = f.data
    rw [hc]
    simp only [List.append_assoc]
    rfl
  · right
    apply String.ext
    show (((n.data ++ "-".data) ++ v.data) ++ ".tar.gz".data) ++ "\x0a".data = f.data
    rw [hc]
    simp only [List.append_assoc]
    rfl

/-- Claim C9, witness. -/
theorem claim_C9_witness :
    ("tools" ++ "-" ++ "0.9.1" ++ ".tar.gz" = "tools-0.9.1.tar.gz" ∨
      "tools" ++ "-" ++ "0.9.1" ++ ".tar.gz" ++ "\x0a" = "tools-0.9.1.tar.gz") ∧
      "tools" ≠ "" ∧ hasVersionPrefix "0.9.1".data = true :=
  claim_C9 "tools-0.9.1.tar.gz" "tools" "0.9.1" (by decide)

/-- Claim C10.  After folding any sequence of archives — hence after every
processed archive, and in particular in the final emitted registry, which is
`buildPackages (processedList dirList)` — every recorded entry has a
non-empty `versions` list and `latest` equals its last element. -/
theorem claim_C10 (l : List String) (name : String) (e : Entry)
    (h : findEntry name (buildPackages l) = some e) :
    e.versions ≠ [] ∧ e.latest = e.versions.getLast? := by
  rw [findEntry_buildPackages] at h
  by_cases hv : versionsFor name l = []
  · rw [if_pos hv] at h; exact absurd h (by simp)
  · rw [if_neg hv] at h
    have he := (Option.some.inj h).symm
    rw [he]
    exact ⟨hv, rfl⟩

/-- Claim C10, witness. -/
theorem claim_C10_witness :
    ({ versions := ["3.0.0"], latest := some "3.0.0" } : Entry).versions ≠ [] ∧
      ({ versions := ["3.0.0"], latest := some "3.0.0" } : Entry).latest =
        ({ versions := ["3.0.0"], latest := some "3.0.0" } : Entry).versions.getLast? :=
  claim_C10 ["c-3.0.0.tar.gz"] "c" { versions := ["3.0.0"], latest := some "3.0.0" } (by decide)
